import Mathlib

/-!
Verification development for the Solana Twitter tracker repository
(`extractor.py` and `streamlit_app.py`).

The Python source is shallowly embedded: text is `List Char`, timestamps are
integers (seconds) or `WithTop Nat` where the code uses `datetime.datetime.max`
as a sentinel, Python dicts keyed by strings become insertion-ordered
association lists, exceptions become `Except`, and float prices become `ℚ`
(rational division is total in Lean, `x / 0 = 0`; theorems about the zero
divisor therefore assert only definedness, never the value at zero).
-/

namespace SolTracker

/-! ### AddressMatcher: `extract_solana_addresses` (extractor.py lines 42-66)

The Python code runs `re.findall` with the pattern `\b[1-9A-HJ-NP-Za-km-z]{32,44}\b`
over the tweet text and returns the matches in order.  The embedding below
reproduces Python `re` semantics for this pattern: left-to-right scan,
greedy repetition with backtracking, and `\b` word boundaries, where a word
character is alphanumeric or underscore (we model the ASCII fragment of
Python's Unicode-aware `\w`; all claims concern ASCII text). -/

/-- The regex character class `[1-9A-HJ-NP-Za-km-z]` from extractor.py line 54. -/
def isBase58 (c : Char) : Bool :=
  ('1' ≤ c && c ≤ '9') || ('A' ≤ c && c ≤ 'H') || ('J' ≤ c && c ≤ 'N') ||
  ('P' ≤ c && c ≤ 'Z') || ('a' ≤ c && c ≤ 'k') || ('m' ≤ c && c ≤ 'z')

/-- Python regex word characters (ASCII): alphanumeric or underscore. -/
def isWordChar (c : Char) : Bool :=
  ('A' ≤ c && c ≤ 'Z') || ('a' ≤ c && c ≤ 'z') || ('0' ≤ c && c ≤ '9') || c == '_'

/-- Consume exactly `k` base58 characters from the front, returning the consumed
characters and the remainder; fails if fewer than `k` base58 characters lead. -/
def takeBase58 : List Char → Nat → Option (List Char × List Char)
  | rest, 0 => some ([], rest)
  | [], _ + 1 => none
  | c :: rest, k + 1 =>
    if isBase58 c then (takeBase58 rest k).map (fun p => (c :: p.1, p.2)) else none

/-- The trailing `\b` of the pattern, checked right after a base58 run: it holds
iff the input is exhausted or the next character is not a word character. -/
def boundaryAfter : List Char → Bool
  | [] => true
  | c :: _ => !isWordChar c

/-- Greedy backtracking attempt of `[1-9A-HJ-NP-Za-km-z]{32,44}\b` at the current
position: try to consume `k` characters, then `k - 1`, ..., down to `32`,
accepting the first length whose end lands on a word boundary. -/
def tryMatchK (cs : List Char) : Nat → Option (List Char × List Char)
  | 0 => none
  | k + 1 =>
    if k + 1 < 32 then none
    else
      match takeBase58 cs (k + 1) with
      | some p => if boundaryAfter p.2 then some p else tryMatchK cs k
      | none => tryMatchK cs k

/-- `re.findall` scan: at each position where the leading `\b` can hold (the
previous character is not a word character), attempt a greedy match; on success
emit it and resume right after the match, otherwise advance one character.
`prevWord` records whether the character before the current position is a word
character (`false` at the start of the string); `fuel` bounds the recursion and
any `fuel ≥ length` is enough since every step consumes at least one character. -/
def findAllAux : Nat → List Char → Bool → List (List Char)
  | 0, _, _ => []
  | _ + 1, [], _ => []
  | fuel + 1, c :: cs, prevWord =>
    if prevWord then findAllAux fuel cs (isWordChar c)
    else
      match tryMatchK (c :: cs) 44 with
      | some p => p.1 :: findAllAux fuel p.2 true
      | none => findAllAux fuel cs (isWordChar c)

/-- extractor.py lines 42-66: empty text short-circuits to `[]` (`if not text`),
otherwise the matches of `re.findall` are copied into the returned list verbatim. -/
def extract_solana_addresses (text : List Char) : List (List Char) :=
  if text.isEmpty then [] else findAllAux text.length text false

/-- Split off the longest base58 prefix of a string. -/
def splitRun : List Char → List Char × List Char
  | [] => ([], [])
  | c :: cs =>
    if isBase58 c then (c :: (splitRun cs).1, (splitRun cs).2) else ([], c :: cs)

/-- The remainder after a maximal base58 run does not begin with a base58 character. -/
def runBreak : List Char → Bool
  | [] => true
  | c :: _ => !isBase58 c

/-! #### Character-class facts -/

/-- Numeric characterization of the regex character class. -/
lemma isBase58_iff_nat (c : Char) : isBase58 c = true ↔
    (49 ≤ c.val.toNat ∧ c.val.toNat ≤ 57) ∨ (65 ≤ c.val.toNat ∧ c.val.toNat ≤ 72) ∨
    (74 ≤ c.val.toNat ∧ c.val.toNat ≤ 78) ∨ (80 ≤ c.val.toNat ∧ c.val.toNat ≤ 90) ∨
    (97 ≤ c.val.toNat ∧ c.val.toNat ≤ 107) ∨ (109 ≤ c.val.toNat ∧ c.val.toNat ≤ 122) := by
  simp only [isBase58, Bool.or_eq_true, Bool.and_eq_true, decide_eq_true_eq,
    Char.le_def, UInt32.le_def, BitVec.le_def]
  have a1 : ('1').val.toBitVec.toNat = 49 := rfl
  have a2 : ('9').val.toBitVec.toNat = 57 := rfl
  have a3 : ('A').val.toBitVec.toNat = 65 := rfl
  have a4 : ('H').val.toBitVec.toNat = 72 := rfl
  have a5 : ('J').val.toBitVec.toNat = 74 := rfl
  have a6 : ('N').val.toBitVec.toNat = 78 := rfl
  have a7 : ('P').val.toBitVec.toNat = 80 := rfl
  have a8 : ('Z').val.toBitVec.toNat = 90 := rfl
  have a9 : ('a').val.toBitVec.toNat = 97 := rfl
  have a10 : ('k').val.toBitVec.toNat = 107 := rfl
  have a11 : ('m').val.toBitVec.toNat = 109 := rfl
  have a12 : ('z').val.toBitVec.toNat = 122 := rfl
  have hv : c.val.toNat = c.val.toBitVec.toNat := rfl
  omega

/-- Numeric characterization of word characters. -/
lemma isWordChar_iff_nat (c : Char) : isWordChar c = true ↔
    (65 ≤ c.val.toNat ∧ c.val.toNat ≤ 90) ∨ (97 ≤ c.val.toNat ∧ c.val.toNat ≤ 122) ∨
    (48 ≤ c.val.toNat ∧ c.val.toNat ≤ 57) ∨ c.val.toNat = 95 := by
  simp only [isWordChar, Bool.or_eq_true, Bool.and_eq_true, decide_eq_true_eq,
    Char.le_def, UInt32.le_def, BitVec.le_def, beq_iff_eq, Char.ext_iff, UInt32.ext_iff]
  have a3 : ('A').val.toBitVec.toNat = 65 := rfl
  have a8 : ('Z').val.toBitVec.toNat = 90 := rfl
  have a9 : ('a').val.toBitVec.toNat = 97 := rfl
  have a12 : ('z').val.toBitVec.toNat = 122 := rfl
  have a13 : ('0').val.toBitVec.toNat = 48 := rfl
  have a2 : ('9').val.toBitVec.toNat = 57 := rfl
  have a14 : ('_').val.toNat = 95 := rfl
  have hv : c.val.toNat = c.val.toBitVec.toNat := rfl
  omega

/-- Every base58 character is a word character (the base58 alphabet is a subset
of the alphanumerics). -/
lemma isWordChar_of_isBase58 {c : Char} (h : isBase58 c = true) : isWordChar c = true := by
  rw [isBase58_iff_nat] at h
  rw [isWordChar_iff_nat]
  omega

/-! #### splitRun facts -/

lemma splitRun_append : ∀ cs : List Char, (splitRun cs).1 ++ (splitRun cs).2 = cs
  | [] => rfl
  | c :: cs => by
    by_cases h : isBase58 c = true
    · simp [splitRun, h, splitRun_append cs]
    · simp [splitRun, h]

lemma splitRun_fst_base58 : ∀ cs : List Char, ∀ c ∈ (splitRun cs).1, isBase58 c = true
  | [] => by simp [splitRun]
  | c :: cs => by
    by_cases h : isBase58 c = true
    · simpa [splitRun, h] using splitRun_fst_base58 cs
    · simp [splitRun, h]

lemma splitRun_runBreak : ∀ cs : List Char, runBreak (splitRun cs).2 = true
  | [] => rfl
  | c :: cs => by
    by_cases h : isBase58 c = true
    · simpa [splitRun, h] using splitRun_runBreak cs
    · simp [splitRun, runBreak, h]

lemma splitRun_snd_length : ∀ cs : List Char, (splitRun cs).2.length ≤ cs.length
  | [] => Nat.le_refl _
  | c :: cs => by
    by_cases h : isBase58 c = true
    · simpa [splitRun, h] using Nat.le_succ_of_le (splitRun_snd_length cs)
    · simp [splitRun, h]

lemma splitRun_cons_base58 {c : Char} (cs : List Char) (h : isBase58 c = true) :
    splitRun (c :: cs) = (c :: (splitRun cs).1, (splitRun cs).2) := by
  simp [splitRun, h]

/-! #### takeBase58 and tryMatchK characterization -/

lemma takeBase58_some : ∀ (k : Nat) (run rest : List Char),
    (∀ c ∈ run, isBase58 c = true) → k ≤ run.length →
    takeBase58 (run ++ rest) k = some (run.take k, run.drop k ++ rest)
  | 0, run, rest, _, _ => by simp [takeBase58]
  | k + 1, [], rest, _, hk => by simp at hk
  | k + 1, c :: run, rest, hrun, hk => by
    have hc : isBase58 c = true := hrun c (by simp)
    have ih := takeBase58_some k run rest (fun d hd => hrun d (by simp [hd]))
      (by simpa using hk)
    simp [takeBase58, hc, ih]

lemma takeBase58_none : ∀ (k : Nat) (run rest : List Char),
    (∀ c ∈ run, isBase58 c = true) → runBreak rest = true → run.length < k →
    takeBase58 (run ++ rest) k = none
  | 0, _, _, _, _, h => absurd h (Nat.not_lt_zero _)
  | k + 1, [], rest, _, hrest, _ => by
    cases rest with
    | nil => rfl
    | cons c rest =>
      have hc : isBase58 c = false := by simpa [runBreak] using hrest
      simp [takeBase58, hc]
  | k + 1, c :: run, rest, hrun, hrest, hk => by
    have hc : isBase58 c = true := hrun c (by simp)
    have ih := takeBase58_none k run rest (fun d hd => hrun d (by simp [hd])) hrest
      (by simpa using hk)
    simp [takeBase58, hc, ih]

lemma boundaryAfter_cons_base58 {c : Char} (l : List Char) (h : isBase58 c = true) :
    boundaryAfter (c :: l) = false := by
  simp [boundaryAfter, isWordChar_of_isBase58 h]

lemma tryMatchK_lt32 : ∀ (cs : List Char) (k : Nat), k < 32 → tryMatchK cs k = none
  | _, 0, _ => rfl
  | cs, k + 1, h => by simp [tryMatchK, h]

/-- The greedy backtracking attempt succeeds exactly when the maximal base58 run
at the current position has length between 32 and `k` and ends on a word
boundary, in which case it returns the whole run. -/
lemma tryMatchK_char : ∀ (k : Nat), ∀ (run rest : List Char),
    32 ≤ k → (∀ c ∈ run, isBase58 c = true) → runBreak rest = true →
    tryMatchK (run ++ rest) k =
      if 32 ≤ run.length ∧ run.length ≤ k ∧ boundaryAfter rest = true
      then some (run, rest) else none := by
  intro k
  induction k with
  | zero => intro run rest hk; omega
  | succ k ih =>
    intro run rest hk hrun hrest
    have hrecnone : run.length > k → tryMatchK (run ++ rest) k = none := by
      intro hgt
      by_cases h32 : 32 ≤ k
      · rw [ih run rest h32 hrun hrest, if_neg]
        rintro ⟨-, h2, -⟩; omega
      · exact tryMatchK_lt32 _ k (by omega)
    rcases Nat.lt_trichotomy run.length (k + 1) with hlt | heq | hgt
    · -- fewer than k+1 base58 characters: this length fails, backtrack
      have hnone := takeBase58_none (k + 1) run rest hrun hrest hlt
      by_cases h32 : 32 ≤ k
      · have := ih run rest h32 hrun hrest
        simp only [tryMatchK, if_neg (by omega : ¬ k + 1 < 32), hnone, this]
        by_cases hcnd : 32 ≤ run.length ∧ boundaryAfter rest = true
        · rw [if_pos ⟨hcnd.1, by omega, hcnd.2⟩, if_pos ⟨hcnd.1, by omega, hcnd.2⟩]
        · rw [if_neg (fun h => hcnd ⟨h.1, h.2.2⟩), if_neg (fun h => hcnd ⟨h.1, h.2.2⟩)]
      · have hk31 : k = 31 := by omega
        simp only [tryMatchK, if_neg (by omega : ¬ k + 1 < 32), hnone,
          tryMatchK_lt32 _ k (by omega)]
        rw [if_neg]; rintro ⟨h1, -, -⟩; omega
    · -- exactly the run length: takeBase58 consumes the whole run
      have hsome := takeBase58_some (k + 1) run rest hrun (by omega)
      rw [List.take_of_length_le (by omega), List.drop_eq_nil_of_le (by omega)] at hsome
      simp only [List.nil_append] at hsome
      by_cases hba : boundaryAfter rest = true
      · simp only [tryMatchK, if_neg (by omega : ¬ k + 1 < 32), hsome, hba, if_true]
        rw [if_pos ⟨by omega, by omega, trivial⟩]
      · simp only [tryMatchK, if_neg (by omega : ¬ k + 1 < 32), hsome,
          hba, if_false, hrecnone (by omega)]
        exact (if_neg (by simp)).symm
    · -- more than k+1 base58 characters: the match ends inside the run, no boundary
      have hsome := takeBase58_some (k + 1) run rest hrun (by omega)
      obtain ⟨d, t, hdt⟩ : ∃ d t, run.drop (k + 1) = d :: t := by
        rcases h : run.drop (k + 1) with _ | ⟨d, t⟩
        · rw [List.drop_eq_nil_iff] at h; omega
        · exact ⟨d, t, rfl⟩
      have hd : isBase58 d = true := by
        have hmem : d ∈ run.drop (k + 1) := by rw [hdt]; simp
        exact hrun d (List.mem_of_mem_drop hmem)
      have hba : boundaryAfter (run.drop (k + 1) ++ rest) = false := by
        rw [hdt]; exact boundaryAfter_cons_base58 _ hd
      simp only [tryMatchK, if_neg (by omega : ¬ k + 1 < 32), hsome, hba,
        if_false, hrecnone (by omega)]
      exact (if_neg (fun h => absurd h.2.1 (by omega))).symm

/-- Closed form of the match attempt at the top pattern length 44, in terms of
the maximal base58 run at the current position. -/
lemma tryMatchK_44 (cs : List Char) :
    tryMatchK cs 44 =
      if 32 ≤ (splitRun cs).1.length ∧ (splitRun cs).1.length ≤ 44 ∧
          boundaryAfter (splitRun cs).2 = true
      then some (splitRun cs) else none := by
  have h := tryMatchK_char 44 (splitRun cs).1 (splitRun cs).2 (by omega)
    (splitRun_fst_base58 cs) (splitRun_runBreak cs)
  rw [splitRun_append cs] at h
  exact h

/-! #### Reference description of the matcher

`wordBoundedRuns` is written from the corrected specification text rather than
from the code: scan the text left to right and collect the maximal runs of
base58 characters whose length is between 32 and 44 and which are bounded on
each side by a non-word character (neither alphanumeric nor underscore) or a
string edge.  `prevWord` records whether the character immediately before the
current position is a word character. -/

def wordBoundedRuns : List Char → Bool → List (List Char)
  | [], _ => []
  | c :: cs, prevWord =>
    if h : isBase58 c = true then
      if prevWord = false ∧ 32 ≤ (splitRun (c :: cs)).1.length ∧
          (splitRun (c :: cs)).1.length ≤ 44 ∧
          boundaryAfter (splitRun (c :: cs)).2 = true then
        (splitRun (c :: cs)).1 :: wordBoundedRuns (splitRun (c :: cs)).2 true
      else wordBoundedRuns (splitRun (c :: cs)).2 true
    else wordBoundedRuns cs (isWordChar c)
termination_by cs _ => cs.length
decreasing_by
  all_goals simp_wf
  all_goals try (rw [splitRun_cons_base58 _ h]; exact Nat.lt_succ_of_le (splitRun_snd_length cs))
  all_goals omega


lemma wordBoundedRuns_nil (b : Bool) : wordBoundedRuns [] b = [] := by
  simp [wordBoundedRuns]

lemma wordBoundedRuns_cons_pos {c : Char} (cs : List Char) (pw : Bool)
    (h : isBase58 c = true) :
    wordBoundedRuns (c :: cs) pw =
      if pw = false ∧ 32 ≤ (splitRun (c :: cs)).1.length ∧
          (splitRun (c :: cs)).1.length ≤ 44 ∧
          boundaryAfter (splitRun (c :: cs)).2 = true then
        (splitRun (c :: cs)).1 :: wordBoundedRuns (splitRun (c :: cs)).2 true
      else wordBoundedRuns (splitRun (c :: cs)).2 true := by
  rw [wordBoundedRuns]
  simp [h]

lemma wordBoundedRuns_cons_neg {c : Char} (cs : List Char) (pw : Bool)
    (h : isBase58 c = false) :
    wordBoundedRuns (c :: cs) pw = wordBoundedRuns cs (isWordChar c) := by
  rw [wordBoundedRuns]
  simp [h]

lemma findAllAux_nil (fuel : Nat) (pw : Bool) : findAllAux fuel [] pw = [] := by
  cases fuel <;> rfl

lemma findAllAux_cons_word (fuel : Nat) (c : Char) (cs : List Char) :
    findAllAux (fuel + 1) (c :: cs) true = findAllAux fuel cs (isWordChar c) := rfl

lemma findAllAux_cons_start_some (fuel : Nat) (c : Char) (cs : List Char)
    (p : List Char × List Char) (h : tryMatchK (c :: cs) 44 = some p) :
    findAllAux (fuel + 1) (c :: cs) false = p.1 :: findAllAux fuel p.2 true := by
  show (match tryMatchK (c :: cs) 44 with
    | some p => p.1 :: findAllAux fuel p.2 true
    | none => findAllAux fuel cs (isWordChar c)) = _
  rw [h]

lemma findAllAux_cons_start_none (fuel : Nat) (c : Char) (cs : List Char)
    (h : tryMatchK (c :: cs) 44 = none) :
    findAllAux (fuel + 1) (c :: cs) false = findAllAux fuel cs (isWordChar c) := by
  show (match tryMatchK (c :: cs) 44 with
    | some p => p.1 :: findAllAux fuel p.2 true
    | none => findAllAux fuel cs (isWordChar c)) = _
  rw [h]

/-- Scanning over base58 (hence word) characters with a word character just
behind finds no match: every position inside such a stretch fails the leading
boundary test. -/
lemma findAllAux_walk : ∀ (run : List Char) (fuel : Nat) (rest : List Char),
    (∀ c ∈ run, isBase58 c = true) →
    findAllAux (fuel + run.length) (run ++ rest) true = findAllAux fuel rest true
  | [], fuel, rest, _ => by simp
  | c :: run, fuel, rest, hrun => by
    have hc : isWordChar c = true := isWordChar_of_isBase58 (hrun c (by simp))
    have ih := findAllAux_walk run fuel rest (fun d hd => hrun d (by simp [hd]))
    have hlen : fuel + (c :: run).length = (fuel + run.length) + 1 := by
      simp [List.length_cons]; omega
    rw [hlen, List.cons_append, findAllAux_cons_word, hc]
    exact ih

/-- The `re.findall` scan agrees with the reference description: it emits
exactly the maximal base58 runs of length 32 to 44 that are bounded by
non-word characters or string edges. -/
lemma findAllAux_eq_wordBoundedRuns : ∀ (n : Nat) (cs : List Char) (pw : Bool) (fuel : Nat),
    cs.length ≤ n → cs.length ≤ fuel →
    findAllAux fuel cs pw = wordBoundedRuns cs pw := by
  intro n
  induction n with
  | zero =>
    intro cs pw fuel h1 _
    have hnil : cs = [] := List.eq_nil_of_length_eq_zero (Nat.le_zero.mp h1)
    subst hnil
    rw [findAllAux_nil, wordBoundedRuns_nil]
  | succ n ih =>
    intro cs pw fuel h1 h2
    match cs, fuel with
    | [], fuel => rw [findAllAux_nil, wordBoundedRuns_nil]
    | c :: cs, 0 => simp at h2
    | c :: cs, fuel + 1 =>
      have hlen1 : cs.length ≤ n := by
        have := h1; simp [List.length_cons] at this; omega
      have hfuel : cs.length ≤ fuel := by
        have := h2; simp [List.length_cons] at this; omega
      have hsum : (splitRun cs).1.length + (splitRun cs).2.length = cs.length := by
        rw [← List.length_append, splitRun_append]
      by_cases hb : isBase58 c = true
      · -- at the start of a nonempty base58 run
        have hsplit := splitRun_cons_base58 cs hb
        have hfst : (splitRun (c :: cs)).1 = c :: (splitRun cs).1 := by rw [hsplit]
        have hsnd : (splitRun (c :: cs)).2 = (splitRun cs).2 := by rw [hsplit]
        -- walking from the second character of the run to its end
        have hwalk : findAllAux fuel cs true =
            findAllAux (fuel - (splitRun cs).1.length) (splitRun cs).2 true := by
          have hw := findAllAux_walk (splitRun cs).1 (fuel - (splitRun cs).1.length)
            (splitRun cs).2 (splitRun_fst_base58 cs)
          rw [show fuel - (splitRun cs).1.length + (splitRun cs).1.length = fuel from by
            omega] at hw
          rw [splitRun_append] at hw
          exact hw
        have hirest : findAllAux (fuel - (splitRun cs).1.length) (splitRun cs).2 true =
            wordBoundedRuns (splitRun cs).2 true :=
          ih (splitRun cs).2 true _ (by omega) (by omega)
        cases pw with
        | true =>
          -- previous character is a word character: no boundary anywhere in the run
          rw [findAllAux_cons_word, isWordChar_of_isBase58 hb, hwalk, hirest]
          rw [wordBoundedRuns_cons_pos cs true hb]
          rw [if_neg (fun hcnd => by simp at hcnd), hsnd]
        | false =>
          -- boundary holds before the run: the regex attempts a greedy match here
          by_cases hcnd : 32 ≤ (splitRun (c :: cs)).1.length ∧
              (splitRun (c :: cs)).1.length ≤ 44 ∧
              boundaryAfter (splitRun (c :: cs)).2 = true
          · have hm : tryMatchK (c :: cs) 44 = some (splitRun (c :: cs)) := by
              rw [tryMatchK_44, if_pos hcnd]
            rw [findAllAux_cons_start_some fuel c cs _ hm]
            have hr2 : (splitRun (c :: cs)).2.length ≤ cs.length := by
              rw [hsnd]; omega
            have hrest2 : findAllAux fuel (splitRun (c :: cs)).2 true =
                wordBoundedRuns (splitRun (c :: cs)).2 true :=
              ih (splitRun (c :: cs)).2 true fuel (by omega) (by omega)
            rw [wordBoundedRuns_cons_pos cs false hb,
              if_pos ⟨rfl, hcnd.1, hcnd.2.1, hcnd.2.2⟩]
            rw [hrest2]
          · have hm : tryMatchK (c :: cs) 44 = none := by
              rw [tryMatchK_44, if_neg hcnd]
            rw [findAllAux_cons_start_none fuel c cs hm]
            rw [isWordChar_of_isBase58 hb, hwalk, hirest]
            rw [wordBoundedRuns_cons_pos cs false hb,
              if_neg (fun hc2 => hcnd ⟨hc2.2.1, hc2.2.2.1, hc2.2.2.2⟩), hsnd]
      · -- not a base58 character: both sides skip one character
        have hbf : isBase58 c = false := by simpa using hb
        have hnone : tryMatchK (c :: cs) 44 = none := by
          rw [tryMatchK_44]
          rw [if_neg]
          intro hcnd
          have hz : (splitRun (c :: cs)).1 = [] := by simp [splitRun, hbf]
          rw [hz] at hcnd
          simp at hcnd
        have hfa : findAllAux (fuel + 1) (c :: cs) pw = findAllAux fuel cs (isWordChar c) := by
          cases pw with
          | true => rw [findAllAux_cons_word]
          | false => rw [findAllAux_cons_start_none fuel c cs hnone]
        rw [hfa, wordBoundedRuns_cons_neg cs pw hbf]
        exact ih cs (isWordChar c) fuel (by omega) (by omega)

/-- The canonical 58-character alphabet from the specification. -/
def base58Chars : List Char :=
  "123456789ABCDEFGHJKLMNPQRSTUVWXYZabcdefghijkmnopqrstuvwxyz".toList

/-- A character accepted by the regex class is one of the 58 alphabet characters. -/
lemma mem_base58Chars_of_isBase58 {c : Char} (h : isBase58 c = true) :
    c ∈ base58Chars := by
  rw [isBase58_iff_nat] at h
  have h58 : c.val.toNat = 49 ∨ c.val.toNat = 50 ∨ c.val.toNat = 51 ∨ c.val.toNat = 52 ∨ c.val.toNat = 53 ∨ c.val.toNat = 54 ∨ c.val.toNat = 55 ∨ c.val.toNat = 56 ∨ c.val.toNat = 57 ∨ c.val.toNat = 65 ∨ c.val.toNat = 66 ∨ c.val.toNat = 67 ∨ c.val.toNat = 68 ∨ c.val.toNat = 69 ∨ c.val.toNat = 70 ∨ c.val.toNat = 71 ∨ c.val.toNat = 72 ∨ c.val.toNat = 74 ∨ c.val.toNat = 75 ∨ c.val.toNat = 76 ∨ c.val.toNat = 77 ∨ c.val.toNat = 78 ∨ c.val.toNat = 80 ∨ c.val.toNat = 81 ∨ c.val.toNat = 82 ∨ c.val.toNat = 83 ∨ c.val.toNat = 84 ∨ c.val.toNat = 85 ∨ c.val.toNat = 86 ∨ c.val.toNat = 87 ∨ c.val.toNat = 88 ∨ c.val.toNat = 89 ∨ c.val.toNat = 90 ∨ c.val.toNat = 97 ∨ c.val.toNat = 98 ∨ c.val.toNat = 99 ∨ c.val.toNat = 100 ∨ c.val.toNat = 101 ∨ c.val.toNat = 102 ∨ c.val.toNat = 103 ∨ c.val.toNat = 104 ∨ c.val.toNat = 105 ∨ c.val.toNat = 106 ∨ c.val.toNat = 107 ∨ c.val.toNat = 109 ∨ c.val.toNat = 110 ∨ c.val.toNat = 111 ∨ c.val.toNat = 112 ∨ c.val.toNat = 113 ∨ c.val.toNat = 114 ∨ c.val.toNat = 115 ∨ c.val.toNat = 116 ∨ c.val.toNat = 117 ∨ c.val.toNat = 118 ∨ c.val.toNat = 119 ∨ c.val.toNat = 120 ∨ c.val.toNat = 121 ∨ c.val.toNat = 122 := by omega
  have hc : Char.ofNat c.toNat = c := Char.ofNat_toNat c
  rcases h58 with h|h|h|h|h|h|h|h|h|h|h|h|h|h|h|h|h|h|h|h|h|h|h|h|h|h|h|h|h|h|h|h|h|h|h|h|h|h|h|h|h|h|h|h|h|h|h|h|h|h|h|h|h|h|h|h|h|h
  all_goals rw [← hc, show c.toNat = _ from h]
  all_goals decide

/-- Conversely, each alphabet character is accepted by the class. -/
lemma isBase58_of_mem_base58Chars {c : Char} (h : c ∈ base58Chars) :
    isBase58 c = true := by
  fin_cases h <;> decide

/-- Every run emitted by the reference description has length 32 to 44 and
consists of base58 characters only. -/
lemma wordBoundedRuns_sound : ∀ (n : Nat) (cs : List Char) (pw : Bool) (m : List Char),
    cs.length ≤ n → m ∈ wordBoundedRuns cs pw →
    32 ≤ m.length ∧ m.length ≤ 44 ∧ ∀ c ∈ m, isBase58 c = true := by
  intro n
  induction n with
  | zero =>
    intro cs pw m h1 hm
    have hnil : cs = [] := List.eq_nil_of_length_eq_zero (Nat.le_zero.mp h1)
    subst hnil
    rw [wordBoundedRuns_nil] at hm
    simp at hm
  | succ n ih =>
    intro cs pw m h1 hm
    match cs with
    | [] => rw [wordBoundedRuns_nil] at hm; simp at hm
    | c :: cs =>
      have hlen1 : cs.length ≤ n := by
        have := h1; simp [List.length_cons] at this; omega
      by_cases hb : isBase58 c = true
      · have hsnd : (splitRun (c :: cs)).2 = (splitRun cs).2 := by
          rw [splitRun_cons_base58 cs hb]
        have hr2 : (splitRun (c :: cs)).2.length ≤ n := by
          rw [hsnd]
          exact le_trans (splitRun_snd_length cs) hlen1
        rw [wordBoundedRuns_cons_pos cs pw hb] at hm
        by_cases hcnd : pw = false ∧ 32 ≤ (splitRun (c :: cs)).1.length ∧
            (splitRun (c :: cs)).1.length ≤ 44 ∧
            boundaryAfter (splitRun (c :: cs)).2 = true
        · rw [if_pos hcnd] at hm
          rcases List.mem_cons.mp hm with hm | hm
          · subst hm
            exact ⟨hcnd.2.1, hcnd.2.2.1, splitRun_fst_base58 (c :: cs)⟩
          · exact ih (splitRun (c :: cs)).2 true m hr2 hm
        · rw [if_neg hcnd] at hm
          exact ih (splitRun (c :: cs)).2 true m hr2 hm
      · have hbf : isBase58 c = false := by simpa using hb
        rw [wordBoundedRuns_cons_neg cs pw hbf] at hm
        exact ih cs (isWordChar c) m hlen1 hm

/-- Shared bridge: `extract` agrees with the reference description on all texts. -/
lemma extract_eq_runs (text : List Char) :
    extract_solana_addresses text = wordBoundedRuns text false := by
  rw [extract_solana_addresses]
  cases text with
  | nil => rw [wordBoundedRuns_nil]; rfl
  | cons c cs =>
    rw [if_neg (by simp)]
    exact findAllAux_eq_wordBoundedRuns (c :: cs).length (c :: cs) false
      (c :: cs).length (le_refl _) (le_refl _)

/-- Claim C6 (amended): `extract` returns exactly the maximal substrings of
length 32-44 drawn from the base58 alphabet that are bounded on each side by a
non-WORD character (a character that is neither alphanumeric nor underscore) or
a string edge.  The original claim's bound "non-alphabet character" is wrong:
the regex uses `\b` word boundaries, so a run adjacent to a word character
outside the alphabet (such as an underscore or the digit zero) is not returned. -/
theorem extract_eq_word_bounded_runs (text : List Char) :
    extract_solana_addresses text = wordBoundedRuns text false :=
  extract_eq_runs text

/-- Claim C6 counterexample: the text made of an underscore followed by a run of
32 alphabet characters.  The run has valid length, all its characters are in the
base58 alphabet, and it is bounded by the non-alphabet character underscore on
the left and the string edge on the right, so the claim as stated demands that
it be returned; `extract` returns nothing on this text. -/
theorem extract_drops_run_after_underscore :
    extract_solana_addresses ('_' :: List.replicate 32 'a') = [] ∧
    isBase58 '_' = false ∧
    (List.replicate 32 'a').length = 32 ∧
    (∀ c ∈ List.replicate 32 'a', isBase58 c = true) := by
  refine ⟨by decide, by decide, by decide, by decide⟩

/-- Claim C7: every string returned by `extract` has length between 32 and 44
and consists solely of characters of the 58-character base58 alphabet; in
particular no returned string contains `0`, `O`, `I` or `l`. -/
theorem extract_output_well_formed (text m : List Char)
    (hm : m ∈ extract_solana_addresses text) :
    32 ≤ m.length ∧ m.length ≤ 44 ∧ base58Chars.length = 58 ∧
    (∀ c ∈ m, c ∈ base58Chars) ∧
    '0' ∉ m ∧ 'O' ∉ m ∧ 'I' ∉ m ∧ 'l' ∉ m := by
  rw [extract_eq_runs] at hm
  have hs := wordBoundedRuns_sound text.length text false m (le_refl _) hm
  refine ⟨hs.1, hs.2.1, by decide, ?_, ?_, ?_, ?_, ?_⟩
  · exact fun c hc => mem_base58Chars_of_isBase58 (hs.2.2 c hc)
  · intro h0; have := hs.2.2 '0' h0; simp [isBase58] at this
  · intro h0; have := hs.2.2 'O' h0; simp [isBase58] at this
  · intro h0; have := hs.2.2 'I' h0; simp [isBase58] at this
  · intro h0; have := hs.2.2 'l' h0; simp [isBase58] at this

/-- Claim C7 witness: a concrete text whose single match satisfies all the
well-formedness conditions. -/
theorem extract_output_well_formed_witness :
    (List.replicate 32 'a') ∈ extract_solana_addresses (' ' :: List.replicate 32 'a') ∧
    (32 ≤ (List.replicate 32 'a').length ∧ (List.replicate 32 'a').length ≤ 44 ∧
      base58Chars.length = 58 ∧ (∀ c ∈ List.replicate 32 'a', c ∈ base58Chars) ∧
      '0' ∉ List.replicate 32 'a' ∧ 'O' ∉ List.replicate 32 'a' ∧
      'I' ∉ List.replicate 32 'a' ∧ 'l' ∉ List.replicate 32 'a') :=
  ⟨by decide, extract_output_well_formed (' ' :: List.replicate 32 'a')
    (List.replicate 32 'a') (by decide)⟩

/-! ### EarliestMentionIndex: the scan loop of extractor.py lines 283-310
(duplicated at streamlit_app.py lines 60-85)

Tweets are sorted ascending by `created_at` (a tweet without the attribute
sorts with `datetime.datetime.max`, modelled as the top element `⊤`), and each
extracted address is stored into the dict keyed by address, replacing the
stored record only when the new datetime is strictly older. -/

/-- A fetched post: `created_at` is optional, mirroring the `hasattr` probes
of the source. -/
structure Post where
  text : List Char
  created_at : Option Nat
deriving DecidableEq

/-- The sort key of line 289 and the stored datetime of lines 296-301:
`created_at` when present, `datetime.datetime.max` (modelled `⊤`) otherwise. -/
def tweetKey (p : Post) : WithTop Nat :=
  match p.created_at with
  | some t => (t : WithTop Nat)
  | none => ⊤

/-- The per-address value stored in `address_dict` (lines 306-310); the
formatted `timestamp` string is a pure rendering of `datetime` and is omitted. -/
structure MentionRecord where
  datetime : WithTop Nat
  tweet_text : List Char
deriving DecidableEq

/-- Python's insertion-ordered dict keyed by address strings. -/
abbrev AddressDict := List (List Char × MentionRecord)

def dictLookup : AddressDict → List Char → Option MentionRecord
  | [], _ => none
  | (a, r) :: d, addr => if a = addr then some r else dictLookup d addr

/-- Assignment `address_dict[address] = rec`: replace in place when the key
exists (keeping its position), append otherwise. -/
def dictAssign : AddressDict → List Char → MentionRecord → AddressDict
  | [], addr, rec => [(addr, rec)]
  | (a, r) :: d, addr, rec =>
    if a = addr then (a, rec) :: d else (a, r) :: dictAssign d addr rec

/-- Lines 303-310: store this occurrence if the address is new or the tweet is
strictly older than the stored record. -/
def processAddress (d : AddressDict) (p : Post) (addr : List Char) : AddressDict :=
  match dictLookup d addr with
  | none => dictAssign d addr ⟨tweetKey p, p.text⟩
  | some old =>
    if tweetKey p < old.datetime then dictAssign d addr ⟨tweetKey p, p.text⟩ else d

/-- Lines 291-310, inner loop: process every address extracted from the tweet. -/
def processTweet (d : AddressDict) (p : Post) : AddressDict :=
  (extract_solana_addresses p.text).foldl (fun d addr => processAddress d p addr) d

/-- Lines 285-310: sort tweets ascending by key, then scan them into the dict. -/
def buildAddressDict (tweets : List Post) : AddressDict :=
  (tweets.insertionSort (fun p q => tweetKey p ≤ tweetKey q)).foldl processTweet []

/-- The multiset of datetimes of the posts mentioning a given address. -/
def mentionKeys (addr : List Char) (tweets : List Post) : List (WithTop Nat) :=
  (tweets.filter (fun p => addr ∈ extract_solana_addresses p.text)).map tweetKey

/-- The earliest datetime over all posts mentioning the address. -/
def minMentionKey (addr : List Char) (tweets : List Post) : WithTop Nat :=
  (mentionKeys addr tweets).foldr min ⊤

/-! #### Dictionary lemmas -/

lemma dictLookup_assign_self : ∀ (d : AddressDict) (a : List Char) (r : MentionRecord),
    dictLookup (dictAssign d a r) a = some r
  | [], a, r => by simp [dictAssign, dictLookup]
  | (b, q) :: d, a, r => by
    by_cases h : b = a
    · simp [dictAssign, dictLookup, h]
    · simp [dictAssign, dictLookup, h, dictLookup_assign_self d a r]

lemma dictLookup_assign_other : ∀ (d : AddressDict) (a addr : List Char)
    (r : MentionRecord), a ≠ addr →
    dictLookup (dictAssign d a r) addr = dictLookup d addr
  | [], a, addr, r, hne => by simp [dictAssign, dictLookup, hne]
  | (b, q) :: d, a, addr, r, hne => by
    have hne2 : addr ≠ a := fun he => hne he.symm
    by_cases h : b = a
    · subst h; simp [dictAssign, dictLookup, hne]
    · by_cases h2 : b = addr
      · simp [dictAssign, dictLookup, h, h2, hne2]
      · simp [dictAssign, dictLookup, h, h2, dictLookup_assign_other d a addr r hne]

/-- Datetime stored for an address, if any. -/
def lookupDT (d : AddressDict) (addr : List Char) : Option (WithTop Nat) :=
  (dictLookup d addr).map (fun r => r.datetime)

/-- Effect of one occurrence on the stored datetime: new entries take the
tweet's key, existing entries keep the minimum (strict-`<` replacement). -/
def updDT (o : Option (WithTop Nat)) (k : WithTop Nat) : Option (WithTop Nat) :=
  match o with
  | none => some k
  | some dt => some (min dt k)

lemma processAddress_lookupDT_self (d : AddressDict) (p : Post) (addr : List Char) :
    lookupDT (processAddress d p addr) addr = updDT (lookupDT d addr) (tweetKey p) := by
  rw [processAddress]
  cases hl : dictLookup d addr with
  | none =>
    simp [lookupDT, updDT, hl, dictLookup_assign_self]
  | some old =>
    by_cases hlt : tweetKey p < old.datetime
    · simp [lookupDT, updDT, hl, hlt, dictLookup_assign_self, min_eq_right (le_of_lt hlt)]
    · simp [lookupDT, updDT, hl, hlt, min_eq_left (le_of_not_lt hlt)]

lemma processAddress_lookupDT_other (d : AddressDict) (p : Post) (a addr : List Char)
    (hne : a ≠ addr) :
    lookupDT (processAddress d p a) addr = lookupDT d addr := by
  rw [processAddress]
  cases hl : dictLookup d a with
  | none => simp [lookupDT, dictLookup_assign_other d a addr _ hne]
  | some old =>
    by_cases hlt : tweetKey p < old.datetime
    · simp [lookupDT, hlt, dictLookup_assign_other d a addr _ hne]
    · simp [lookupDT, hlt]

lemma updDT_idem (o : Option (WithTop Nat)) (k : WithTop Nat) :
    updDT (updDT o k) k = updDT o k := by
  cases o <;> simp [updDT, min_assoc]

lemma foldl_processAddress_lookupDT (p : Post) (addr : List Char) :
    ∀ (addrs : List (List Char)) (d : AddressDict),
    lookupDT (addrs.foldl (fun d a => processAddress d p a) d) addr =
      if addr ∈ addrs then updDT (lookupDT d addr) (tweetKey p) else lookupDT d addr
  | [], d => by simp
  | a :: addrs, d => by
    by_cases h : a = addr
    · subst h
      rw [List.foldl_cons, foldl_processAddress_lookupDT p a addrs _,
        processAddress_lookupDT_self]
      by_cases h2 : a ∈ addrs
      · simp [h2, updDT_idem]
      · simp [h2]
    · have h2 : ¬ addr = a := fun he => h he.symm
      rw [List.foldl_cons, foldl_processAddress_lookupDT p addr addrs _,
        processAddress_lookupDT_other d p a addr h]
      simp [List.mem_cons, h2]

lemma processTweet_lookupDT (d : AddressDict) (p : Post) (addr : List Char) :
    lookupDT (processTweet d p) addr =
      if addr ∈ extract_solana_addresses p.text then
        updDT (lookupDT d addr) (tweetKey p)
      else lookupDT d addr :=
  foldl_processAddress_lookupDT p addr (extract_solana_addresses p.text) d

lemma foldl_processTweet_lookupDT (addr : List Char) :
    ∀ (posts : List Post) (d : AddressDict),
    lookupDT (posts.foldl processTweet d) addr =
      (mentionKeys addr posts).foldl updDT (lookupDT d addr)
  | [], d => by simp [mentionKeys]
  | p :: posts, d => by
    rw [List.foldl_cons, foldl_processTweet_lookupDT addr posts _, processTweet_lookupDT]
    by_cases h : addr ∈ extract_solana_addresses p.text
    · rw [if_pos h]
      have hk : mentionKeys addr (p :: posts) = tweetKey p :: mentionKeys addr posts := by
        simp [mentionKeys, h]
      rw [hk, List.foldl_cons]
    · rw [if_neg h]
      have hk : mentionKeys addr (p :: posts) = mentionKeys addr posts := by
        simp [mentionKeys, h]
      rw [hk]

lemma foldl_updDT_some : ∀ (ks : List (WithTop Nat)) (dt : WithTop Nat),
    ks.foldl updDT (some dt) = some (min dt (ks.foldr min ⊤))
  | [], dt => by simp [min_eq_left le_top]
  | k :: ks, dt => by
    rw [List.foldl_cons]
    show ks.foldl updDT (some (min dt k)) = _
    rw [foldl_updDT_some ks (min dt k)]
    simp [List.foldr_cons, min_assoc]

lemma foldl_updDT_none : ∀ (ks : List (WithTop Nat)), ks ≠ [] →
    ks.foldl updDT none = some (ks.foldr min ⊤)
  | [], h => absurd rfl h
  | k :: ks, _ => by
    rw [List.foldl_cons]
    show ks.foldl updDT (some k) = _
    rw [foldl_updDT_some ks k]
    simp [List.foldr_cons]

lemma foldr_min_perm : ∀ {l1 l2 : List (WithTop Nat)}, l1.Perm l2 →
    l1.foldr min ⊤ = l2.foldr min ⊤ := by
  intro l1 l2 h
  induction h with
  | nil => rfl
  | cons x _ ih => simp [List.foldr_cons, ih]
  | swap x y l => simp only [List.foldr_cons, ← min_assoc, min_comm y x]
  | trans _ _ ih1 ih2 => rw [ih1, ih2]

lemma mentionKeys_perm (addr : List Char) {t1 t2 : List Post} (h : t1.Perm t2) :
    (mentionKeys addr t1).Perm (mentionKeys addr t2) :=
  (h.filter _).map _

lemma minMentionKey_perm (addr : List Char) {t1 t2 : List Post} (h : t1.Perm t2) :
    minMentionKey addr t1 = minMentionKey addr t2 :=
  foldr_min_perm (mentionKeys_perm addr h)

lemma mentionKeys_ne_nil_of_perm (addr : List Char) {t1 t2 : List Post}
    (h : t1.Perm t2) (hne : mentionKeys addr t1 ≠ []) :
    mentionKeys addr t2 ≠ [] := by
  intro h0
  apply hne
  have hl := (mentionKeys_perm addr h).length_eq
  rw [h0] at hl
  exact List.eq_nil_of_length_eq_zero hl

/-- The dict built by the scan stores, for any mentioned address, exactly the
minimum tweet key over the posts that mention it. -/
lemma buildAddressDict_lookupDT (tweets : List Post) (addr : List Char)
    (hne : mentionKeys addr tweets ≠ []) :
    lookupDT (buildAddressDict tweets) addr = some (minMentionKey addr tweets) := by
  rw [buildAddressDict]
  have hbase : lookupDT ([] : AddressDict) addr = none := rfl
  rw [foldl_processTweet_lookupDT, hbase]
  have hperm : (tweets.insertionSort (fun p q => tweetKey p ≤ tweetKey q)).Perm tweets :=
    List.perm_insertionSort _ _
  have hkp := mentionKeys_perm addr hperm
  have hne2 : mentionKeys addr (tweets.insertionSort (fun p q => tweetKey p ≤ tweetKey q)) ≠ [] :=
    mentionKeys_ne_nil_of_perm addr hperm.symm hne
  rw [foldl_updDT_none _ hne2]
  rw [show (mentionKeys addr (tweets.insertionSort (fun p q => tweetKey p ≤ tweetKey q))).foldr min ⊤ =
    minMentionKey addr tweets from foldr_min_perm hkp]

/-- Claim C1: for every set of posts and every address mentioned in at least one
post, the earliest-mention dict assigns that address the minimum `created_at`
over all posts whose text mentions it (posts lacking `created_at` counting as
maximally late, `⊤`), and the assigned datetime is the same for every input
ordering of the posts. -/
theorem earliest_mention_timestamp_is_min (tweets : List Post) (addr : List Char)
    (h : ∃ p ∈ tweets, addr ∈ extract_solana_addresses p.text) :
    (∃ r, dictLookup (buildAddressDict tweets) addr = some r ∧
      r.datetime = minMentionKey addr tweets) ∧
    ∀ tweets2 : List Post, tweets2.Perm tweets →
      ∃ r2, dictLookup (buildAddressDict tweets2) addr = some r2 ∧
        r2.datetime = minMentionKey addr tweets := by
  have hne : mentionKeys addr tweets ≠ [] := by
    obtain ⟨p, hp, hm⟩ := h
    intro h0
    have hmem : p ∈ tweets.filter (fun p => addr ∈ extract_solana_addresses p.text) :=
      List.mem_filter.mpr ⟨hp, by simpa using hm⟩
    have : tweetKey p ∈ mentionKeys addr tweets := List.mem_map_of_mem _ hmem
    rw [h0] at this
    simp at this
  constructor
  · have hl := buildAddressDict_lookupDT tweets addr hne
    rw [lookupDT] at hl
    obtain ⟨r, hr, hdt⟩ := Option.map_eq_some'.mp hl
    exact ⟨r, hr, hdt⟩
  · intro t2 hp2
    have hne2 : mentionKeys addr t2 ≠ [] := mentionKeys_ne_nil_of_perm addr hp2.symm hne
    have hl2 := buildAddressDict_lookupDT t2 addr hne2
    rw [lookupDT] at hl2
    obtain ⟨r2, hr2, hdt2⟩ := Option.map_eq_some'.mp hl2
    exact ⟨r2, hr2, by rw [hdt2, minMentionKey_perm addr hp2]⟩

/-- Claim C1 witness: two concrete posts mentioning the same address at times 5
and 3; the dict records the minimum, 3. -/
theorem earliest_mention_timestamp_is_min_witness :
    (∃ p ∈ ([⟨' ' :: List.replicate 32 'a', some 5⟩,
        ⟨List.replicate 32 'a', some 3⟩] : List Post),
      List.replicate 32 'a' ∈ extract_solana_addresses p.text) ∧
    ((∃ r, dictLookup (buildAddressDict [⟨' ' :: List.replicate 32 'a', some 5⟩,
        ⟨List.replicate 32 'a', some 3⟩]) (List.replicate 32 'a') = some r ∧
      r.datetime = minMentionKey (List.replicate 32 'a')
        [⟨' ' :: List.replicate 32 'a', some 5⟩, ⟨List.replicate 32 'a', some 3⟩]) ∧
    ∀ tweets2 : List Post,
      tweets2.Perm [⟨' ' :: List.replicate 32 'a', some 5⟩,
        ⟨List.replicate 32 'a', some 3⟩] →
      ∃ r2, dictLookup (buildAddressDict tweets2) (List.replicate 32 'a') = some r2 ∧
        r2.datetime = minMentionKey (List.replicate 32 'a')
          [⟨' ' :: List.replicate 32 'a', some 5⟩, ⟨List.replicate 32 'a', some 3⟩]) :=
  ⟨by decide, earliest_mention_timestamp_is_min _ _ (by decide)⟩

/-! #### The stored-text invariant (claim C10) -/

/-- Invariant: every address stored in the dict is extractable from the tweet
text stored in its own record. -/
def DictInv (d : AddressDict) : Prop :=
  ∀ addr r, dictLookup d addr = some r → addr ∈ extract_solana_addresses r.tweet_text

lemma dictInv_assign {d : AddressDict} (hInv : DictInv d) {a : List Char}
    {rec : MentionRecord} (hrec : a ∈ extract_solana_addresses rec.tweet_text) :
    DictInv (dictAssign d a rec) := by
  intro addr r hl
  by_cases he : a = addr
  · subst he
    rw [dictLookup_assign_self] at hl
    injection hl with hl
    rw [← hl]
    exact hrec
  · rw [dictLookup_assign_other d a addr _ he] at hl
    exact hInv addr r hl

lemma dictInv_processAddress {d : AddressDict} {p : Post} {a : List Char}
    (hInv : DictInv d) (ha : a ∈ extract_solana_addresses p.text) :
    DictInv (processAddress d p a) := by
  rw [processAddress]
  cases dictLookup d a with
  | none => exact dictInv_assign hInv ha
  | some old =>
    show DictInv (if tweetKey p < old.datetime then
      dictAssign d a ⟨tweetKey p, p.text⟩ else d)
    by_cases hlt : tweetKey p < old.datetime
    · rw [if_pos hlt]
      exact dictInv_assign hInv ha
    · rw [if_neg hlt]
      exact hInv

lemma dictInv_processTweet {d : AddressDict} (p : Post) (hInv : DictInv d) :
    DictInv (processTweet d p) := by
  rw [processTweet]
  have hgen : ∀ (addrs : List (List Char)),
      (∀ a ∈ addrs, a ∈ extract_solana_addresses p.text) →
      ∀ d, DictInv d →
      DictInv (addrs.foldl (fun d a => processAddress d p a) d) := by
    intro addrs
    induction addrs with
    | nil => intro _ d hd; simpa using hd
    | cons a addrs ih =>
      intro hmem d hd
      rw [List.foldl_cons]
      exact ih (fun b hb => hmem b (by simp [hb])) _
        (dictInv_processAddress hd (hmem a (by simp)))
  exact hgen _ (fun a ha => ha) d hInv

lemma dictInv_buildAddressDict (tweets : List Post) : DictInv (buildAddressDict tweets) := by
  rw [buildAddressDict]
  have hgen : ∀ (posts : List Post) (d : AddressDict), DictInv d →
      DictInv (posts.foldl processTweet d) := by
    intro posts
    induction posts with
    | nil => intro d hd; simpa using hd
    | cons p posts ih =>
      intro d hd
      rw [List.foldl_cons]
      exact ih _ (dictInv_processTweet p hd)
  exact hgen _ [] (fun addr r h => by simp [dictLookup] at h)

/-- Claim C10: every address that is a key of the earliest-mention dict is
contained in the tweet text stored in its own record: extracting addresses
from the stored text yields the address among the results. -/
theorem stored_text_contains_address (tweets : List Post) (addr : List Char)
    (r : MentionRecord) (h : dictLookup (buildAddressDict tweets) addr = some r) :
    addr ∈ extract_solana_addresses r.tweet_text :=
  dictInv_buildAddressDict tweets addr r h

/-- Claim C10 witness: a single post whose text is exactly the address. -/
theorem stored_text_contains_address_witness :
    dictLookup (buildAddressDict [⟨List.replicate 32 'a', some 3⟩])
        (List.replicate 32 'a') =
      some ⟨((3 : Nat) : WithTop Nat), List.replicate 32 'a'⟩ ∧
    List.replicate 32 'a' ∈ extract_solana_addresses
      (MentionRecord.mk ((3 : Nat) : WithTop Nat) (List.replicate 32 'a')).tweet_text :=
  ⟨by decide, stored_text_contains_address [⟨List.replicate 32 'a', some 3⟩]
    (List.replicate 32 'a')
    ⟨((3 : Nat) : WithTop Nat), List.replicate 32 'a'⟩ (by decide)⟩

/-! ### TimelineFetcher: `get_user_tweets` (extractor.py lines 68-121) -/

/-- One page of the Twitter API response: the posts in `response.data` (an
empty list models a falsy `data`) and the optional `next_token` of
`response.meta`. -/
structure Page where
  data : List Post
  next_token : Option Nat

/-- A run of the Twitter client as the fetch observes it: whether the username
resolves to a user id, and the outcome of the i-th page request, which either
raises an exception (`Except.error`) or returns a page. -/
structure TwitterRun where
  user : Option Nat
  pages : Nat → Except Unit Page

/-- Lines 91-117, the pagination loop: `remaining` counts requests still
allowed (`max_requests = 10`), `i` indexes the next request, `acc` is the
`tweets` accumulator.  A raised exception propagates out of the loop. -/
def fetchPages (pages : Nat → Except Unit Page) :
    Nat → Nat → List Post → Except Unit (List Post)
  | 0, _, acc => Except.ok acc
  | remaining + 1, i, acc =>
    match pages i with
    | Except.error e => Except.error e
    | Except.ok page =>
      if page.data = [] then Except.ok acc
      else
        match page.next_token with
        | none => Except.ok (acc ++ page.data)
        | some _ => fetchPages pages remaining (i + 1) (acc ++ page.data)

/-- extractor.py lines 68-121, `get_user_tweets`: the whole body, pagination
loop included, sits inside one `try`; the `except` clause catches any exception
and returns the empty list (line 121).  An unresolved username also returns the
empty list (line 77). -/
def get_user_tweets (run : TwitterRun) : List Post :=
  match run.user with
  | none => []
  | some _ =>
    match fetchPages run.pages 10 0 [] with
    | Except.ok tweets => tweets
    | Except.error _ => []

/-- A run whose first page succeeds with one post and a continuation token and
whose second page raises. -/
def failingSecondPageRun : TwitterRun :=
  { user := some 0
    pages := fun i =>
      if i = 0 then Except.ok ⟨[⟨List.replicate 32 'a', some 0⟩], some 1⟩
      else Except.error () }

/-- Claim C2 counterexample: the first page was retrieved (one post, with a
continuation token), the second request fails; the claim says the fetch returns
the accumulated post, but `get_user_tweets` returns the empty list, discarding
the partial progress. -/
theorem fetch_failure_discards_partial_progress :
    get_user_tweets failingSecondPageRun = [] ∧
    failingSecondPageRun.pages 0 =
      Except.ok ⟨[⟨List.replicate 32 'a', some 0⟩], some 1⟩ ∧
    failingSecondPageRun.pages 1 = Except.error () ∧
    ([⟨List.replicate 32 'a', some 0⟩] : List Post) ≠ [] := by
  refine ⟨rfl, rfl, rfl, by simp⟩

/-- Claim C2 (amended): a failure mid-pagination is caught only by the `try`
wrapped around the whole fetch, whose handler returns the empty list: the posts
accumulated from pages retrieved before the failure are discarded, not
returned. -/
theorem fetch_failure_returns_empty (run : TwitterRun) (uid : Nat) (e : Unit)
    (hu : run.user = some uid)
    (he : fetchPages run.pages 10 0 [] = Except.error e) :
    get_user_tweets run = [] := by
  simp [get_user_tweets, hu, he]

/-- Claim C2 witness: the amended behaviour on the concrete failing run. -/
theorem fetch_failure_returns_empty_witness :
    failingSecondPageRun.user = some 0 ∧
    fetchPages failingSecondPageRun.pages 10 0 [] = Except.error () ∧
    get_user_tweets failingSecondPageRun = [] :=
  ⟨rfl, rfl, fetch_failure_returns_empty failingSecondPageRun 0 () rfl rfl⟩

/-! ### WindowedMarketQuery: `query_flipside_data` (extractor.py lines 141-262) -/

/-- An hourly row of the Flipside result: hour bucket (epoch seconds), average
price in USD, and swap count.  Rows with a null price are excluded by the query
itself (`token_price_usd IS NOT NULL`), so `price` is total here. -/
structure MarketRow where
  hour : Int
  price : ℚ
  swap_count : Nat
deriving DecidableEq

/-- The per-address record appended to `all_results` (lines 232-238). -/
structure AddressResult where
  address : List Char
  tweet_timestamp : Int
  data : List MarketRow
deriving DecidableEq

/-- Lines 163-165: the query window starts two hours before and ends
twenty-four hours after the tweet time (seconds since the epoch). -/
def windowStart (tweet_time : Int) : Int := tweet_time - 2 * 3600

def windowEnd (tweet_time : Int) : Int := tweet_time + 24 * 3600

/-- Line 204, `block_timestamp BETWEEN start AND end`: SQL BETWEEN is closed on
both ends. -/
def inWindow (tweet_time hour : Int) : Bool :=
  decide (windowStart tweet_time ≤ hour) && decide (hour ≤ windowEnd tweet_time)

/-- Seconds since the Unix epoch of a UTC instant inside January 2024 (enough
for the concrete instants of the claims): 2024-01-01 is day 19723 of the epoch. -/
def ts2024Jan (day h mi s : Nat) : Int :=
  ((19723 + ((day : Int) - 1)) * 86400) + h * 3600 + mi * 60 + s

/-- Claim C8: the market-query interval is exactly the closed interval from two
hours before to twenty-four hours after the mention timestamp; for
2024-01-01T12:00:00Z it is exactly from 2024-01-01T10:00:00Z to
2024-01-02T12:00:00Z. -/
theorem market_query_window (t hour : Int) :
    (inWindow t hour = true ↔ t - 7200 ≤ hour ∧ hour ≤ t + 86400) ∧
    windowStart (ts2024Jan 1 12 0 0) = ts2024Jan 1 10 0 0 ∧
    windowEnd (ts2024Jan 1 12 0 0) = ts2024Jan 2 12 0 0 := by
  refine ⟨?_, by decide, by decide⟩
  simp only [inWindow, windowStart, windowEnd, Bool.and_eq_true, decide_eq_true_eq]
  omega

/-- Lines 159-262: one Flipside query per pair of `zip(addresses, timestamps)`.
The Flipside call sits in a per-iteration `try` (line 224): an exception is
caught, logged, and the loop moves to the next address; a successful response
is appended to `all_results` only when its record list is nonempty (line 228);
an empty response is only logged ("No swap data found"). -/
def query_flipside_data (q : List Char → Int → Except Unit (List MarketRow))
    (addresses : List (List Char)) (timestamps : List Int) : List AddressResult :=
  (addresses.zip timestamps).foldl
    (fun acc pair =>
      match q pair.1 pair.2 with
      | Except.error _ => acc
      | Except.ok recs => if recs = [] then acc else acc ++ [⟨pair.1, pair.2, recs⟩])
    []

lemma query_foldl_acc_mono (q : List Char → Int → Except Unit (List MarketRow)) :
    ∀ (pairs : List (List Char × Int)) (acc : List AddressResult) (r : AddressResult),
    r ∈ acc →
    r ∈ pairs.foldl
      (fun acc pair =>
        match q pair.1 pair.2 with
        | Except.error _ => acc
        | Except.ok recs => if recs = [] then acc else acc ++ [⟨pair.1, pair.2, recs⟩])
      acc
  | [], acc, r, hr => hr
  | pair :: pairs, acc, r, hr => by
    rw [List.foldl_cons]
    refine query_foldl_acc_mono q pairs _ r ?_
    cases q pair.1 pair.2 with
    | error e => exact hr
    | ok recs =>
      by_cases hrec : recs = []
      · simpa [hrec] using hr
      · simp only [hrec, if_neg]
        exact List.mem_append_left _ hr

lemma query_foldl_mem (q : List Char → Int → Except Unit (List MarketRow))
    (a : List Char) (ts : Int) (recs : List MarketRow)
    (hok : q a ts = Except.ok recs) (hne : recs ≠ []) :
    ∀ (pairs : List (List Char × Int)) (acc : List AddressResult),
    (a, ts) ∈ pairs →
    (⟨a, ts, recs⟩ : AddressResult) ∈ pairs.foldl
      (fun acc pair =>
        match q pair.1 pair.2 with
        | Except.error _ => acc
        | Except.ok recs => if recs = [] then acc else acc ++ [⟨pair.1, pair.2, recs⟩])
      acc
  | [], acc, hmem => by simp at hmem
  | pair :: pairs, acc, hmem => by
    rw [List.foldl_cons]
    rcases List.mem_cons.mp hmem with heq | hmem2
    · subst heq
      refine query_foldl_acc_mono q pairs _ _ ?_
      rw [hok]
      show (⟨a, ts, recs⟩ : AddressResult) ∈
        (if recs = [] then acc else acc ++ [⟨a, ts, recs⟩])
      rw [if_neg hne]
      exact List.mem_append_right _ (by simp)
    · exact query_foldl_mem q a ts recs hok hne pairs _ hmem2

/-- Claim C4: a raised per-address query failure is caught inside the loop, so
every other pair whose query succeeds with data still produces its summary in
the result list, whatever the other queries do. -/
theorem query_failure_leaves_others_intact
    (q : List Char → Int → Except Unit (List MarketRow))
    (addresses : List (List Char)) (timestamps : List Int)
    (a : List Char) (ts : Int) (recs : List MarketRow)
    (hmem : (a, ts) ∈ addresses.zip timestamps)
    (hok : q a ts = Except.ok recs) (hne : recs ≠ []) :
    (⟨a, ts, recs⟩ : AddressResult) ∈ query_flipside_data q addresses timestamps := by
  rw [query_flipside_data]
  exact query_foldl_mem q a ts recs hok hne _ [] hmem

/-- A simulated query oracle for three addresses that fails on the second one. -/
def qsim : List Char → Int → Except Unit (List MarketRow) :=
  fun a _ =>
    if a = List.replicate 32 'b' then Except.error ()
    else Except.ok [⟨0, 1, 1⟩]

/-- Claim C4 witness: three addresses, the second query raises, and the other
two addresses both still yield their summaries. -/
theorem query_failure_leaves_others_intact_witness :
    ((List.replicate 32 'a', (10 : Int)) ∈
        ([List.replicate 32 'a', List.replicate 32 'b', List.replicate 32 'c']).zip
          [(10 : Int), 20, 30] ∧
      qsim (List.replicate 32 'a') 10 = Except.ok [⟨0, 1, 1⟩] ∧
      ([⟨0, 1, 1⟩] : List MarketRow) ≠ []) ∧
    qsim (List.replicate 32 'b') 20 = Except.error () ∧
    (⟨List.replicate 32 'a', 10, [⟨0, 1, 1⟩]⟩ : AddressResult) ∈
      query_flipside_data qsim
        [List.replicate 32 'a', List.replicate 32 'b', List.replicate 32 'c']
        [10, 20, 30] ∧
    (⟨List.replicate 32 'c', 30, [⟨0, 1, 1⟩]⟩ : AddressResult) ∈
      query_flipside_data qsim
        [List.replicate 32 'a', List.replicate 32 'b', List.replicate 32 'c']
        [10, 20, 30] :=
  ⟨⟨by decide, rfl, by decide⟩, rfl,
    query_failure_leaves_others_intact qsim _ _ _ 10 _ (by decide) rfl (by decide),
    query_failure_leaves_others_intact qsim _ _ _ 30 _ (by decide) rfl (by decide)⟩

/-- Claim C5 counterexample: one input address whose query succeeds with zero
rows.  The claim says the address is recorded in the overall result set with an
empty result; the code records nothing at all for it. -/
theorem empty_result_address_omitted :
    List.replicate 32 'a' ∈ [List.replicate 32 'a'] ∧
    query_flipside_data (fun _ _ => Except.ok []) [List.replicate 32 'a']
      [(0 : Int)] = [] ∧
    ∀ r ∈ query_flipside_data (fun _ _ => Except.ok []) [List.replicate 32 'a']
      [(0 : Int)], r.address ≠ List.replicate 32 'a' := by
  refine ⟨by simp, rfl, ?_⟩
  intro r hr
  have hres : query_flipside_data (fun _ _ => Except.ok []) [List.replicate 32 'a']
      [(0 : Int)] = [] := rfl
  rw [hres] at hr
  exact absurd hr (List.not_mem_nil r)

lemma query_foldl_sound (q : List Char → Int → Except Unit (List MarketRow)) :
    ∀ (pairs : List (List Char × Int)) (acc : List AddressResult) (r : AddressResult),
    r ∈ pairs.foldl
      (fun acc pair =>
        match q pair.1 pair.2 with
        | Except.error _ => acc
        | Except.ok recs => if recs = [] then acc else acc ++ [⟨pair.1, pair.2, recs⟩])
      acc →
    r ∈ acc ∨ ((r.address, r.tweet_timestamp) ∈ pairs ∧
      q r.address r.tweet_timestamp = Except.ok r.data ∧ r.data ≠ [])
  | [], acc, r, hr => Or.inl hr
  | pair :: pairs, acc, r, hr => by
    rw [List.foldl_cons] at hr
    rcases query_foldl_sound q pairs _ r hr with hacc | ⟨hmem, hq, hne⟩
    · cases hq2 : q pair.1 pair.2 with
      | error e =>
        rw [hq2] at hacc
        exact Or.inl hacc
      | ok recs =>
        rw [hq2] at hacc
        have hacc2 : r ∈ (if recs = [] then acc
            else acc ++ [(⟨pair.1, pair.2, recs⟩ : AddressResult)]) := hacc
        by_cases hrec : recs = []
        · rw [if_pos hrec] at hacc2
          exact Or.inl hacc2
        · rw [if_neg hrec] at hacc2
          rcases List.mem_append.mp hacc2 with h1 | h2
          · exact Or.inl h1
          · simp only [List.mem_singleton] at h2
            subst h2
            exact Or.inr ⟨by simp, by simpa using hq2, hrec⟩
    · exact Or.inr ⟨by simp [hmem], hq, hne⟩

/-- Claim C5 (amended): an address appears in the overall result set exactly
via a successful nonempty query; an address whose query fails or returns zero
rows is omitted from the result set (it is only mentioned in transient log
output), not recorded with an empty result. -/
theorem results_only_from_nonempty_queries
    (q : List Char → Int → Except Unit (List MarketRow))
    (addresses : List (List Char)) (timestamps : List Int) (r : AddressResult)
    (hr : r ∈ query_flipside_data q addresses timestamps) :
    (r.address, r.tweet_timestamp) ∈ addresses.zip timestamps ∧
    q r.address r.tweet_timestamp = Except.ok r.data ∧ r.data ≠ [] := by
  rw [query_flipside_data] at hr
  rcases query_foldl_sound q _ [] r hr with hacc | h
  · simp at hacc
  · exact h

/-- Claim C5 witness: the amended statement applied to a concrete result entry
of the three-address simulated run. -/
theorem results_only_from_nonempty_queries_witness :
    (⟨List.replicate 32 'a', 10, [⟨0, 1, 1⟩]⟩ : AddressResult) ∈
      query_flipside_data qsim
        [List.replicate 32 'a', List.replicate 32 'b', List.replicate 32 'c']
        [10, 20, 30] ∧
    ((List.replicate 32 'a', (10 : Int)) ∈
        ([List.replicate 32 'a', List.replicate 32 'b', List.replicate 32 'c']).zip
          [(10 : Int), 20, 30] ∧
      qsim (List.replicate 32 'a') 10 = Except.ok [⟨0, 1, 1⟩] ∧
      ([⟨0, 1, 1⟩] : List MarketRow) ≠ []) :=
  ⟨by decide, results_only_from_nonempty_queries qsim
    [List.replicate 32 'a', List.replicate 32 'b', List.replicate 32 'c']
    [10, 20, 30] ⟨List.replicate 32 'a', 10, [⟨0, 1, 1⟩]⟩ (by decide)⟩

/-! ### ImpactAnalyzer: streamlit_app.py lines 233-257

Prices are embedded as rationals.  Lean's rational division is total
(`x / 0 = 0`) whereas the numpy float division of the source yields an infinite
or NaN percentage at a zero divisor; the claims below therefore only ever use
WHETHER a percentage is produced, never its value at a zero `price_before`. -/

/-- `sort_values('hour')` on a row list. -/
def sortByHour (rows : List MarketRow) : List MarketRow :=
  rows.insertionSort (fun r s => r.hour ≤ s.hour)

/-- The metrics of lines 242-257.  `price_after_1h`/`price_after_24h` mirror
`post.iloc[0] if len(post) > 0 else None` and `post.iloc[-1] ...`;
`change_1h`/`change_24h` are computed exactly when the corresponding price is
not `None`, with no guard on `price_before = 0`. -/
structure ImpactSummary where
  price_before : ℚ
  price_after_1h : Option ℚ
  price_after_24h : Option ℚ
  change_1h : Option ℚ
  change_24h : Option ℚ
deriving DecidableEq

/-- Lines 239-257: split rows into `post_tweet_data` (hour at or after the
tweet) and `pre_tweet_data` (hour strictly before), each sorted ascending by
hour; when both are nonempty, read the three prices and compute the two
percentage changes. -/
def impactAnalysis (rows : List MarketRow) (t : Int) : Option ImpactSummary :=
  let post_tweet_data := sortByHour (rows.filter (fun r => t ≤ r.hour))
  let pre_tweet_data := sortByHour (rows.filter (fun r => r.hour < t))
  if h : post_tweet_data ≠ [] ∧ pre_tweet_data ≠ [] then
    let pb := (pre_tweet_data.getLast h.2).price
    let pa1 := post_tweet_data.head?.map (fun r => r.price)
    let pa24 := post_tweet_data.getLast?.map (fun r => r.price)
    some { price_before := pb
           price_after_1h := pa1
           price_after_24h := pa24
           change_1h := pa1.map (fun p => (p - pb) / pb * 100)
           change_24h := pa24.map (fun p => (p - pb) / pb * 100) }
  else none

/-- Claim C3 counterexample: rows whose last pre-tweet price is zero.  The
claim says the analysis produces no percentage; the code performs the division
with no zero guard and produces both percentages (numpy emits an
infinite/NaN value rather than leaving the metric undefined, and no
division-by-zero exception interrupts the analysis). -/
theorem zero_price_before_still_produces_percentages :
    (impactAnalysis [⟨-3600, 0, 1⟩, ⟨3600, 4, 1⟩] 0).isSome = true ∧
    (impactAnalysis [⟨-3600, 0, 1⟩, ⟨3600, 4, 1⟩] 0).map
      (fun s => s.price_before) = some 0 ∧
    (impactAnalysis [⟨-3600, 0, 1⟩, ⟨3600, 4, 1⟩] 0).map
      (fun s => s.change_1h.isSome) = some true ∧
    (impactAnalysis [⟨-3600, 0, 1⟩, ⟨3600, 4, 1⟩] 0).map
      (fun s => s.change_24h.isSome) = some true := by
  refine ⟨by decide, by decide, by decide, by decide⟩

/-- Claim C3 (amended): when `price_before` is zero and both partitions are
nonempty, the analysis still performs both divisions and produces both
percentages (`change_1h` and `change_24h` are defined); in Python the numpy
float division yields an infinite or NaN percentage without raising a
division-by-zero error, because no zero guard exists in the code. -/
theorem zero_price_before_divides_anyway (rows : List MarketRow) (t : Int)
    (s : ImpactSummary) (h : impactAnalysis rows t = some s)
    (h0 : s.price_before = 0) :
    s.change_1h.isSome = true ∧ s.change_24h.isSome = true := by
  rw [impactAnalysis] at h
  by_cases hcnd : sortByHour (rows.filter (fun r => t ≤ r.hour)) ≠ [] ∧
      sortByHour (rows.filter (fun r => r.hour < t)) ≠ []
  · rw [dif_pos hcnd] at h
    injection h with h
    subst h
    rcases List.exists_cons_of_ne_nil hcnd.1 with ⟨a, l, hl⟩
    constructor
    · show (Option.map _ (Option.map _
        (sortByHour (rows.filter (fun r => t ≤ r.hour))).head?)).isSome = true
      rw [hl]
      simp
    · show (Option.map _ (Option.map _
        (sortByHour (rows.filter (fun r => t ≤ r.hour))).getLast?)).isSome = true
      rw [hl]
      have hb := List.getLast?_eq_getLast (a :: l) (by simp)
      simp [hb]
  · rw [dif_neg hcnd] at h
    exact absurd h (by simp)

/-- Claim C3 witness: the amended statement at the concrete zero-price rows. -/
theorem zero_price_before_divides_anyway_witness :
    impactAnalysis [⟨-3600, 0, 1⟩, ⟨3600, 4, 1⟩] 0 =
      some ⟨0, some 4, some 4, some ((4 - 0) / 0 * 100), some ((4 - 0) / 0 * 100)⟩ ∧
    (⟨0, some 4, some 4, some ((4 - 0) / 0 * 100),
      some ((4 - 0) / 0 * 100)⟩ : ImpactSummary).price_before = 0 ∧
    ((⟨0, some 4, some 4, some ((4 - 0) / 0 * 100),
      some ((4 - 0) / 0 * 100)⟩ : ImpactSummary).change_1h.isSome = true ∧
     (⟨0, some 4, some 4, some ((4 - 0) / 0 * 100),
      some ((4 - 0) / 0 * 100)⟩ : ImpactSummary).change_24h.isSome = true) :=
  ⟨rfl, rfl,
    zero_price_before_divides_anyway [⟨-3600, 0, 1⟩, ⟨3600, 4, 1⟩] 0
      ⟨0, some 4, some 4, some ((4 - 0) / 0 * 100), some ((4 - 0) / 0 * 100)⟩
      rfl rfl⟩

/-- Written from the specification words for ImpactAnalyzer: partition the rows
into pre (hour strictly before t) and post (hour at or after t), sort each
ascending by hour, take price_before from the last pre row, the first-post and
latest prices from the first and last post rows, and the percentage changes
against price_before. -/
def impactSpec (rows : List MarketRow) (t : Int) : Option ImpactSummary :=
  let parts := rows.partition (fun r => r.hour < t)
  let pre := sortByHour parts.1
  let post := sortByHour parts.2
  if h : post ≠ [] ∧ pre ≠ [] then
    let pb := (pre.getLast h.2).price
    let pa1 := post.head?.map (fun r => r.price)
    let pa24 := post.getLast?.map (fun r => r.price)
    some { price_before := pb
           price_after_1h := pa1
           price_after_24h := pa24
           change_1h := pa1.map (fun p => (p - pb) / pb * 100)
           change_24h := pa24.map (fun p => (p - pb) / pb * 100) }
  else none

lemma insertionSort_pair (a b : MarketRow) (h : a.hour ≤ b.hour) :
    sortByHour [a, b] = [a, b] := by
  simp [sortByHour, List.insertionSort, List.orderedInsert, h]

/-- Claim C9: the impact analysis is exactly the pre/post partition described
by the specification, and on the rows (t-3h, 1), (t-1h, 2), (t+1h, 4),
(t+25h, 8) it yields price_before 2, first-post price 4, latest price 8,
and percentage changes 100 and 300. -/
theorem impact_partition_and_example :
    (∀ (rows : List MarketRow) (t : Int), impactAnalysis rows t = impactSpec rows t) ∧
    (∀ t : Int, impactAnalysis
        [⟨t - 3 * 3600, 1, 1⟩, ⟨t - 3600, 2, 1⟩, ⟨t + 3600, 4, 1⟩, ⟨t + 25 * 3600, 8, 1⟩]
        t =
      some ⟨2, some 4, some 8, some 100, some 300⟩) := by
  constructor
  · intro rows t
    have h2 : rows.filter (not ∘ fun r => decide (r.hour < t)) =
        rows.filter (fun r => decide (t ≤ r.hour)) := by
      refine List.filter_congr ?_
      intro a _
      show (!decide (a.hour < t)) = decide (t ≤ a.hour)
      rw [← decide_not]
      exact decide_eq_decide.mpr Int.not_lt
    simp only [impactAnalysis, impactSpec, List.partition_eq_filter_filter, h2]
  · intro t
    have e1 : decide (t ≤ t - 3 * 3600) = false := decide_eq_false (by omega)
    have e2 : decide (t ≤ t - 3600) = false := decide_eq_false (by omega)
    have e3 : decide (t ≤ t + 3600) = true := decide_eq_true (by omega)
    have e4 : decide (t ≤ t + 25 * 3600) = true := decide_eq_true (by omega)
    have f1 : decide (t - 3 * 3600 < t) = true := decide_eq_true (by omega)
    have f2 : decide (t - 3600 < t) = true := decide_eq_true (by omega)
    have f3 : decide (t + 3600 < t) = false := decide_eq_false (by omega)
    have f4 : decide (t + 25 * 3600 < t) = false := decide_eq_false (by omega)
    have hpost : List.filter (fun r => decide (t ≤ r.hour))
        [(⟨t - 3 * 3600, 1, 1⟩ : MarketRow), ⟨t - 3600, 2, 1⟩, ⟨t + 3600, 4, 1⟩,
          ⟨t + 25 * 3600, 8, 1⟩] = [⟨t + 3600, 4, 1⟩, ⟨t + 25 * 3600, 8, 1⟩] := by
      simp [List.filter, e1, e2, e3, e4]
    have hpre : List.filter (fun r => decide (r.hour < t))
        [(⟨t - 3 * 3600, 1, 1⟩ : MarketRow), ⟨t - 3600, 2, 1⟩, ⟨t + 3600, 4, 1⟩,
          ⟨t + 25 * 3600, 8, 1⟩] = [⟨t - 3 * 3600, 1, 1⟩, ⟨t - 3600, 2, 1⟩] := by
      simp [List.filter, f1, f2, f3, f4]
    have hs1 : sortByHour [(⟨t + 3600, 4, 1⟩ : MarketRow), ⟨t + 25 * 3600, 8, 1⟩] =
        [⟨t + 3600, 4, 1⟩, ⟨t + 25 * 3600, 8, 1⟩] :=
      insertionSort_pair _ _ ((by omega : (t + 3600 : Int) ≤ t + 25 * 3600))
    have hs2 : sortByHour [(⟨t - 3 * 3600, 1, 1⟩ : MarketRow), ⟨t - 3600, 2, 1⟩] =
        [⟨t - 3 * 3600, 1, 1⟩, ⟨t - 3600, 2, 1⟩] :=
      insertionSort_pair _ _ ((by omega : (t - 3 * 3600 : Int) ≤ t - 3600))
    simp only [impactAnalysis, hpost, hpre, hs1, hs2]
    rw [dif_pos]
    · simp [List.getLast, List.head?, List.getLast?]
      norm_num
    · simp
